import Mathlib

/-!
Verification of the HamroNepal Bikram Sambat (BS) ⇄ Gregorian (AD) calendar
engine, as implemented in the shared `@hamronepal/bs-date` package
(`core.ts` — the "BS Date Core Utilities" file — and `format.ts`).

Shallow embedding conventions:

* A Gregorian ("primary") date at day granularity is represented by its
  floored day offset `diffDays : Int` from the reference anchor
  `AD_REFERENCE` (2023-04-14), exactly the quantity the source computes in
  step 1 of `adToBS` via `Math.floor((date - AD_REFERENCE) / 86400000)`;
  the function `msToDayOffset` performs that step on a millisecond
  timestamp.  `bsToAD` correspondingly returns the day offset that the
  source applies to `AD_REFERENCE` with `setDate`.
* JavaScript numbers holding calendar quantities are embedded as `Int`.
* `Math.floor(a / b)` on integers is `Int.fdiv a b`.
* JavaScript out-of-bounds array indexing yields `undefined`, which the
  source coalesces with `?? 30` (month tables) or `?? ""` (month names);
  this is embedded with `Option.getD`.
* The source's unbounded `while` loops are embedded as fuel-indexed
  recursions; the top-level wrappers supply a fuel that is proved
  sufficient (the fuel-independence theorems below are the termination
  statements for the loops).
-/

namespace HamroNepal

/-- A Bikram Sambat calendar date, the `BSDate` record of `types.ts`. -/
structure BSDate where
  year : Int
  month : Int
  day : Int
deriving DecidableEq, Repr

/-- The three display styles of `formatBSDate` (`BSDateFormat` in `types.ts`). -/
inductive BSDateFormat where
  | full
  | short
  | long
deriving DecidableEq, Repr

/-- The ordered Nepali digit glyph table `NEPALI_DIGITS`. -/
def NEPALI_DIGITS : List Char :=
  ['०', '१', '२', '३', '४', '५', '६', '७', '८', '९']

/-- The ordered Nepali month-name table `BS_MONTHS`. -/
def BS_MONTHS : List String :=
  ["बैशाख", "जेठ", "असार", "श्रावण", "भदौ", "असोज",
   "कार्तिक", "मंसिर", "पुष", "माघ", "फागुन", "चैत्र"]

/-- Modelled from the spec: the calendar table `BS_CALENDAR_DATA` lives in
the shared package's `constants.ts`, which is not among the provided
source files (only its importers are).  The spec (§3) describes it as a
mapping from supported years (~2080–2090) to ordered sequences of exactly
12 positive month lengths; the row values below are those of the repo's
sibling copy of the same table.  None of the theorems below depend on the
individual values, only on every entry lying in `[29, 32]`. -/
def BS_CALENDAR_TABLE : List (Int × List Int) :=
  [(2080, [31, 32, 31, 32, 31, 30, 30, 30, 29, 30, 29, 31]),
   (2081, [31, 31, 32, 31, 31, 31, 30, 29, 30, 29, 30, 30]),
   (2082, [31, 31, 32, 32, 31, 30, 30, 29, 30, 29, 30, 30]),
   (2083, [31, 32, 31, 32, 31, 30, 30, 30, 29, 29, 30, 31]),
   (2084, [30, 32, 31, 32, 31, 30, 30, 30, 29, 30, 29, 31]),
   (2085, [31, 31, 32, 31, 31, 31, 30, 29, 30, 29, 30, 30]),
   (2086, [31, 31, 32, 32, 31, 30, 30, 29, 30, 29, 30, 30]),
   (2087, [31, 32, 31, 32, 31, 30, 30, 30, 29, 29, 30, 31]),
   (2088, [31, 31, 31, 32, 31, 31, 29, 30, 30, 29, 29, 31]),
   (2089, [31, 31, 32, 31, 31, 31, 30, 29, 30, 29, 30, 30]),
   (2090, [31, 31, 32, 32, 31, 30, 30, 29, 30, 29, 30, 30])]

/-- The JavaScript record lookup `BS_CALENDAR_DATA[year]` (`undefined`,
i.e. `none`, for years without an entry). -/
def BS_CALENDAR_DATA (year : Int) : Option (List Int) :=
  (BS_CALENDAR_TABLE.find? (fun p => p.1 == year)).map Prod.snd

/-- The reference anchor on the BS side: `BS_REFERENCE`, 2080-01-01 BS. -/
def BS_REFERENCE : BSDate := ⟨2080, 1, 1⟩

/-- Modelled from the spec: `AD_REFERENCE = new Date(2023, 3, 14)` from the
missing `constants.ts` (the anchor 2023-04-14 AD is stated in the spec and
in the sibling copies).  Taken at UTC midnight; no theorem depends on the
numeric value. -/
def AD_REFERENCE_MS : Int := 1681430400000

/-- Step 1 of `adToBS`: millisecond timestamp to floored day offset from
the reference, `Math.floor((t - AD_REFERENCE) / (1000*60*60*24))`. -/
def msToDayOffset (ms : Int) : Int :=
  Int.fdiv (ms - AD_REFERENCE_MS) 86400000

/-- JavaScript array indexing `row[i]` with an `Int` index: `undefined`
(here `none`) when out of range. -/
def listIdx (row : List Int) (i : Int) : Option Int :=
  if 0 ≤ i then row.get? i.toNat else none

/-- The fixed fallback month-length pattern `defaultDays` declared inside
`getDaysInBSMonth` in `core.ts`. -/
def defaultDays : List Int := [31, 31, 32, 31, 31, 31, 30, 29, 30, 29, 30, 30]

/-- `getDaysInBSMonth` from `core.ts`:
`BS_CALENDAR_DATA[year] ? BS_CALENDAR_DATA[year][month-1] ?? 30
 : defaultDays[month-1] ?? 30`. -/
def getDaysInBSMonth (year month : Int) : Int :=
  match BS_CALENDAR_DATA year with
  | some row => (listIdx row (month - 1)).getD 30
  | none => (listIdx defaultDays (month - 1)).getD 30

/-- `getDaysInBSYear` from `core.ts`: the row sum for table years,
the constant 365 otherwise. -/
def getDaysInBSYear (year : Int) : Int :=
  match BS_CALENDAR_DATA year with
  | some row => row.foldl (· + ·) 0
  | none => 365

/-- One forward day step on a BS date.  This is, verbatim, the body of the
forward walking loop of `bsToAD` (`day++; if day > daysInMonth { day = 1;
month++; if month > 12 { month = 1; year++ } }`); the forward loop of
`adToBS` is proved below to compute an iterate of this same step. -/
def succBS (b : BSDate) : BSDate :=
  if b.day + 1 > getDaysInBSMonth b.year b.month then
    if b.month + 1 > 12 then ⟨b.year + 1, 1, 1⟩
    else ⟨b.year, b.month + 1, 1⟩
  else ⟨b.year, b.month, b.day + 1⟩

/-- One backward day step on a BS date: the body shared by the backward
loop of `adToBS` and the backward loop of `bsToAD` (`day--; if day < 1 {
month--; if month < 1 { month = 12; year-- }; day = daysInMonth }`). -/
def predBS (b : BSDate) : BSDate :=
  if b.day - 1 < 1 then
    if b.month - 1 < 1 then ⟨b.year - 1, 12, getDaysInBSMonth (b.year - 1) 12⟩
    else ⟨b.year, b.month - 1, getDaysInBSMonth b.year (b.month - 1)⟩
  else ⟨b.year, b.month, b.day - 1⟩

/-- The forward (`diffDays >= 0`) month-skipping loop of `adToBS`,
fuel-indexed. -/
def adToBSFwd (fuel : Nat) (diffDays : Int) (b : BSDate) : BSDate :=
  match fuel with
  | 0 => b
  | fuel + 1 =>
    if 0 < diffDays then
      let daysInMonth := getDaysInBSMonth b.year b.month
      let remainingDaysInMonth := daysInMonth - b.day
      if diffDays ≤ remainingDaysInMonth then ⟨b.year, b.month, b.day + diffDays⟩
      else if b.month + 1 > 12 then
        adToBSFwd fuel (diffDays - (remainingDaysInMonth + 1)) ⟨b.year + 1, 1, 1⟩
      else
        adToBSFwd fuel (diffDays - (remainingDaysInMonth + 1)) ⟨b.year, b.month + 1, 1⟩
    else b

/-- The backward (`diffDays < 0`) day-by-day loop of `adToBS`,
fuel-indexed; each iteration is one `predBS` step. -/
def adToBSBwd (fuel : Nat) (diffDays : Int) (b : BSDate) : BSDate :=
  match fuel with
  | 0 => b
  | fuel + 1 => if diffDays < 0 then adToBSBwd fuel (diffDays + 1) (predBS b) else b

/-- `adToBS` from `core.ts`, acting on the floored day offset from the
reference (see the header comment): walk forward or backward from
`BS_REFERENCE` by `diffDays` days. -/
def adToBS (diffDays : Int) : BSDate :=
  if 0 ≤ diffDays then adToBSFwd (diffDays.toNat + 1) diffDays BS_REFERENCE
  else adToBSBwd ((-diffDays).toNat + 1) diffDays BS_REFERENCE

/-- The forward day-counting loop of `bsToAD`, fuel-indexed: while any
component of the cursor is below the target's, take one `succBS` step and
increment the day counter. -/
def bsToADFwd (fuel : Nat) (target : BSDate) (diffDays : Int) (b : BSDate) : Int :=
  match fuel with
  | 0 => diffDays
  | fuel + 1 =>
    if b.year < target.year ∨ b.month < target.month ∨ b.day < target.day then
      bsToADFwd fuel target (diffDays + 1) (succBS b)
    else diffDays

/-- The backward day-counting loop of `bsToAD`, fuel-indexed. -/
def bsToADBwd (fuel : Nat) (target : BSDate) (diffDays : Int) (b : BSDate) : Int :=
  match fuel with
  | 0 => diffDays
  | fuel + 1 =>
    if b.year > target.year ∨ b.month > target.month ∨ b.day > target.day then
      bsToADBwd fuel target (diffDays - 1) (predBS b)
    else diffDays

/-- Fuel bound supplied to the `bsToAD` loops (a modelling artifact: the
source loops are unbounded `while`s; the fuel-independence theorem below
shows any fuel at least this large gives the same answer, i.e. the loops
terminate). -/
def bsToADFuel (b : BSDate) : Nat :=
  400 * ((b.year - 2080).natAbs + 2)

/-- `bsToAD` run with an explicit fuel: the source's branch on whether the
target is on/after the reference (`year > ref.year || (year = ref.year &&
month > ref.month) || (year = ref.year && month = ref.month && day >=
ref.day)`) followed by the corresponding counting loop from the
reference. -/
def bsToADWith (fuel : Nat) (bsDate : BSDate) : Int :=
  if bsDate.year > BS_REFERENCE.year ∨
     (bsDate.year = BS_REFERENCE.year ∧ bsDate.month > BS_REFERENCE.month) ∨
     (bsDate.year = BS_REFERENCE.year ∧ bsDate.month = BS_REFERENCE.month ∧
       bsDate.day ≥ BS_REFERENCE.day) then
    bsToADFwd fuel bsDate 0 BS_REFERENCE
  else
    bsToADBwd fuel bsDate 0 BS_REFERENCE

/-- `bsToAD` from `core.ts`, returning the signed day offset that the
source applies to `AD_REFERENCE` via `setDate`. -/
def bsToAD (bsDate : BSDate) : Int :=
  bsToADWith (bsToADFuel bsDate) bsDate

/-- The per-character mapping of `toNepaliDigits` from `core.ts`:
`parseInt(char, 10)` succeeds on a single character exactly for the ASCII
digits `0`–`9` (`Char.isDigit`); a digit indexes the glyph table, anything
else passes through. -/
def mapNepaliChar (c : Char) : Char :=
  if c.isDigit then (NEPALI_DIGITS.get? (c.toNat - 48)).getD c else c

/-- `toNepaliDigits` on a string: `String(num).split("").map(...).join("")`. -/
def toNepaliDigits (s : String) : String :=
  String.mk (s.data.map mapNepaliChar)

/-- Decimal digit extraction, fuel-indexed (any fuel above the input
suffices, see `decimalDigitsAux_congr`). -/
def decimalDigitsAux : Nat → Nat → List Nat
  | 0, _ => []
  | fuel + 1, n => if n < 10 then [n] else decimalDigitsAux fuel (n / 10) ++ [n % 10]

/-- Decimal digits of a natural number, most significant first: the digit
sequence produced by JavaScript `String(num)` for a non-negative integer. -/
def decimalDigits (n : Nat) : List Nat := decimalDigitsAux (n + 1) n

/-- JavaScript `String(num)` for a natural number. -/
def decimalRepr (n : Nat) : String :=
  String.mk ((decimalDigits n).map Nat.digitChar)

/-- JavaScript `String(num)` for an integer. -/
def intRepr (n : Int) : String :=
  if n < 0 then "-" ++ decimalRepr (-n).toNat else decimalRepr n.toNat

/-- JavaScript `s.padStart(2, "0")`. -/
def padStart2 (s : String) : String :=
  String.mk (List.replicate (2 - s.data.length) '0' ++ s.data)

/-- The month-name lookup of `formatBSDate`: `BS_MONTHS[month - 1] ?? ""`
(out-of-range indexing gives `undefined`, coalesced to the empty string). -/
def bsMonthName (month : Int) : String :=
  if 1 ≤ month ∧ month ≤ 12 then (BS_MONTHS.get? (month - 1).toNat).getD "" else ""

/-- `formatBSDate` from `format.ts`: the three display styles. -/
def formatBSDate (bsDate : BSDate) (format : BSDateFormat) : String :=
  match format with
  | BSDateFormat.short =>
    toNepaliDigits (intRepr bsDate.year) ++ "-" ++
      toNepaliDigits (padStart2 (intRepr bsDate.month)) ++ "-" ++
      toNepaliDigits (padStart2 (intRepr bsDate.day))
  | BSDateFormat.long =>
    bsMonthName bsDate.month ++ " " ++ toNepaliDigits (intRepr bsDate.day) ++ ", " ++
      toNepaliDigits (intRepr bsDate.year)
  | BSDateFormat.full =>
    toNepaliDigits (intRepr bsDate.day) ++ " " ++ bsMonthName bsDate.month ++ " " ++
      toNepaliDigits (intRepr bsDate.year)

/-- `getRelativeTimeNepali` from `format.ts`, as a function of the two
millisecond timestamps `now.getTime()` and `date.getTime()`.  The future
branch and final fallback compose the source's `adToBS(date)` as
`adToBS (msToDayOffset dateMs)` (see the header comment). -/
def getRelativeTimeNepali (nowMs dateMs : Int) : String :=
  let diffMs := nowMs - dateMs
  if diffMs < 0 then formatBSDate (adToBS (msToDayOffset dateMs)) BSDateFormat.full
  else
    let diffSecs := Int.fdiv diffMs 1000
    let diffMins := Int.fdiv diffSecs 60
    let diffHours := Int.fdiv diffMins 60
    let diffDays := Int.fdiv diffHours 24
    let diffWeeks := Int.fdiv diffDays 7
    let diffMonths := Int.fdiv diffDays 30
    if diffSecs < 60 then "भर्खरै"
    else if diffMins < 60 then toNepaliDigits (intRepr diffMins) ++ " मिनेट अघि"
    else if diffHours < 24 then toNepaliDigits (intRepr diffHours) ++ " घण्टा अघि"
    else if diffDays = 1 then "हिजो"
    else if diffDays < 7 then toNepaliDigits (intRepr diffDays) ++ " दिन अघि"
    else if diffWeeks = 1 then "गत हप्ता"
    else if diffWeeks < 4 then toNepaliDigits (intRepr diffWeeks) ++ " हप्ता अघि"
    else if diffMonths = 1 then "गत महिना"
    else if diffMonths < 12 then toNepaliDigits (intRepr diffMonths) ++ " महिना अघि"
    else formatBSDate (adToBS (msToDayOffset dateMs)) BSDateFormat.full

/-- Modelled from the spec (§8, property 7): the inverse of the digit
localization, mapping each glyph of the 10-element table back to its ASCII
digit and leaving other characters unchanged. -/
def deNepaliChar (c : Char) : Char :=
  match NEPALI_DIGITS.findIdx? (fun g => g == c) with
  | some i => Nat.digitChar i
  | none => c

/-- Value of a list of ASCII digit characters, most significant first. -/
def digitsVal (l : List Char) : Nat :=
  l.foldl (fun a c => 10 * a + (c.toNat - 48)) 0

/-- Modelled from the spec (§8, property 7): parse a non-empty all-digit
field as a decimal number. -/
def parseDecimal (l : List Char) : Option Nat :=
  if l ≠ [] ∧ l.all Char.isDigit then some (digitsVal l) else none

/-- Split a character list on the separator. -/
def splitDash : List Char → List (List Char)
  | [] => [[]]
  | c :: rest =>
    match splitDash rest with
    | [] => [[]]
    | g :: gs => if c = '-' then [] :: g :: gs else (c :: g) :: gs

/-- Modelled from the spec (§8, property 7): parse a short-style formatted
date back by splitting on the separator and reversing the digit
localization. -/
def parseShortBS (s : String) : Option BSDate :=
  match splitDash s.data with
  | [a, b, c] =>
    match parseDecimal (a.map deNepaliChar), parseDecimal (b.map deNepaliChar),
        parseDecimal (c.map deNepaliChar) with
    | some y, some m, some d => some ⟨(y : Int), (m : Int), (d : Int)⟩
    | _, _, _ => none
  | _ => none

/-- Well-formedness of a BS date with respect to the calendar table: the
invariant the converter is claimed to maintain. -/
def Valid (b : BSDate) : Prop :=
  1 ≤ b.month ∧ b.month ≤ 12 ∧ 1 ≤ b.day ∧ b.day ≤ getDaysInBSMonth b.year b.month

instance : DecidablePred Valid := fun b => by unfold Valid; infer_instance

/-- Strict lexicographic order on (year, month, day). -/
def bsLexLt (a b : BSDate) : Prop :=
  a.year < b.year ∨ (a.year = b.year ∧ a.month < b.month) ∨
    (a.year = b.year ∧ a.month = b.month ∧ a.day < b.day)

instance (a b : BSDate) : Decidable (bsLexLt a b) := by unfold bsLexLt; infer_instance

/-- Non-strict lexicographic order on (year, month, day). -/
def bsLexLe (a b : BSDate) : Prop := bsLexLt a b ∨ a = b

instance (a b : BSDate) : Decidable (bsLexLe a b) := by unfold bsLexLe; infer_instance

/-- Potential function: strictly increases along `succBS` and strictly
decreases along `predBS` on valid dates, giving day-count bounds. -/
def phiBS (b : BSDate) : Int := 400 * b.year + 33 * b.month + b.day

/-- The canonical day-walk from the anchor: `walkBS n` is the BS date
lying `n` days from `BS_REFERENCE`. -/
def walkBS (n : Int) : BSDate :=
  if 0 ≤ n then succBS^[n.toNat] BS_REFERENCE else predBS^[(-n).toNat] BS_REFERENCE

/-- Total number of days covered by the explicit calendar table (the sum
of `getDaysInBSYear` over the table years 2080–2090): the "table span" of
the round-trip claim. -/
def tableSpanDays : Int :=
  ((List.range 11).map (fun i => getDaysInBSYear (2080 + (i : Int)))).foldl (· + ·) 0

theorem listIdx_getD_bounds {row : List Int} {lo hi : Int}
    (h : ∀ x ∈ row, lo ≤ x ∧ x ≤ hi) (hlo : lo ≤ 30) (hhi : 30 ≤ hi) (i : Int) :
    lo ≤ (listIdx row i).getD 30 ∧ (listIdx row i).getD 30 ≤ hi := by
  unfold listIdx
  split
  · cases hg : row.get? i.toNat with
    | none => simpa using ⟨hlo, hhi⟩
    | some x => simpa using h x (List.get?_mem hg)
  · simpa using ⟨hlo, hhi⟩

theorem bs_calendar_rows {y : Int} {row : List Int} (h : BS_CALENDAR_DATA y = some row) :
    ∀ x ∈ row, (1 : Int) ≤ x ∧ x ≤ 32 := by
  unfold BS_CALENDAR_DATA at h
  rw [Option.map_eq_some'] at h
  obtain ⟨p, hp, hrow⟩ := h
  have hmem : p ∈ BS_CALENDAR_TABLE := List.mem_of_find?_eq_some hp
  have hall : ∀ q ∈ BS_CALENDAR_TABLE, ∀ x ∈ q.2, (1 : Int) ≤ x ∧ x ≤ 32 := by decide
  subst hrow
  exact hall p hmem

theorem getDaysInBSMonth_bounds (y m : Int) :
    1 ≤ getDaysInBSMonth y m ∧ getDaysInBSMonth y m ≤ 32 := by
  unfold getDaysInBSMonth
  cases h : BS_CALENDAR_DATA y with
  | none => exact listIdx_getD_bounds (by decide) (by decide) (by decide) _
  | some row => exact listIdx_getD_bounds (bs_calendar_rows h) (by decide) (by decide) _

theorem dim_pos (y m : Int) : 1 ≤ getDaysInBSMonth y m :=
  (getDaysInBSMonth_bounds y m).1

theorem dim_le (y m : Int) : getDaysInBSMonth y m ≤ 32 :=
  (getDaysInBSMonth_bounds y m).2

theorem valid_ref : Valid BS_REFERENCE := by decide

theorem valid_succ {b : BSDate} (h : Valid b) : Valid (succBS b) := by
  obtain ⟨y, m, d⟩ := b
  obtain ⟨h1, h2, h3, h4⟩ := h
  dsimp only at h1 h2 h3 h4
  unfold succBS
  dsimp only
  by_cases hd : d + 1 > getDaysInBSMonth y m
  · rw [if_pos hd]
    by_cases hm : m + 1 > 12
    · rw [if_pos hm]
      refine ⟨?_, ?_, ?_, ?_⟩ <;> dsimp only <;> first | exact dim_pos _ _ | omega
    · rw [if_neg hm]
      refine ⟨?_, ?_, ?_, ?_⟩ <;> dsimp only <;> first | exact dim_pos _ _ | omega
  · rw [if_neg hd]
    refine ⟨?_, ?_, ?_, ?_⟩ <;> dsimp only <;> omega

theorem valid_pred {b : BSDate} (h : Valid b) : Valid (predBS b) := by
  obtain ⟨y, m, d⟩ := b
  obtain ⟨h1, h2, h3, h4⟩ := h
  dsimp only at h1 h2 h3 h4
  unfold predBS
  dsimp only
  by_cases hd : d - 1 < 1
  · rw [if_pos hd]
    by_cases hm : m - 1 < 1
    · rw [if_pos hm]
      refine ⟨?_, ?_, ?_, ?_⟩ <;> dsimp only <;> first | exact dim_pos _ _ | omega
    · rw [if_neg hm]
      refine ⟨?_, ?_, ?_, ?_⟩ <;> dsimp only <;> first | exact dim_pos _ _ | omega
  · rw [if_neg hd]
    refine ⟨?_, ?_, ?_, ?_⟩ <;> dsimp only <;> omega

theorem succ_pred {b : BSDate} (h : Valid b) : succBS (predBS b) = b := by
  obtain ⟨y, m, d⟩ := b
  obtain ⟨h1, h2, h3, h4⟩ := h
  dsimp only at h1 h2 h3 h4
  unfold predBS
  dsimp only
  by_cases hd : d - 1 < 1
  · rw [if_pos hd]
    by_cases hm : m - 1 < 1
    · rw [if_pos hm]
      unfold succBS
      dsimp only
      rw [if_pos (by omega), if_pos (by omega)]
      simp only [BSDate.mk.injEq, true_and, and_true]
      try omega
    · rw [if_neg hm]
      unfold succBS
      dsimp only
      rw [if_pos (by omega), if_neg (by omega)]
      simp only [BSDate.mk.injEq, true_and, and_true]
      try omega
  · rw [if_neg hd]
    unfold succBS
    dsimp only
    rw [if_neg (by omega)]
    simp only [BSDate.mk.injEq, true_and, and_true]
    try omega

theorem pred_succ {b : BSDate} (h : Valid b) : predBS (succBS b) = b := by
  obtain ⟨y, m, d⟩ := b
  obtain ⟨h1, h2, h3, h4⟩ := h
  dsimp only at h1 h2 h3 h4
  unfold succBS
  dsimp only
  by_cases hd : d + 1 > getDaysInBSMonth y m
  · rw [if_pos hd]
    by_cases hm : m + 1 > 12
    · rw [if_pos hm]
      unfold predBS
      dsimp only
      rw [if_pos (by omega), if_pos (by omega)]
      have hy : y + 1 - 1 = y := by ring
      rw [hy]
      have hm12 : m = 12 := by omega
      subst hm12
      simp only [BSDate.mk.injEq, true_and, and_true]
      try omega
    · rw [if_neg hm]
      unfold predBS
      dsimp only
      rw [if_pos (by omega), if_neg (by omega)]
      have hm' : m + 1 - 1 = m := by ring
      rw [hm']
      simp only [BSDate.mk.injEq, true_and, and_true]
      try omega
  · rw [if_neg hd]
    unfold predBS
    dsimp only
    rw [if_neg (by omega)]
    simp only [BSDate.mk.injEq, true_and, and_true]
    try omega

theorem bsLexLt_trans {a b c : BSDate} (h1 : bsLexLt a b) (h2 : bsLexLt b c) :
    bsLexLt a c := by
  unfold bsLexLt at *
  omega

theorem bsLexLt_asymm {a b : BSDate} (h1 : bsLexLt a b) (h2 : bsLexLt b a) : False := by
  unfold bsLexLt at *
  omega

theorem bsLexLt_ne {a b : BSDate} (h : bsLexLt a b) : a ≠ b := by
  intro he
  subst he
  unfold bsLexLt at h
  omega

theorem bsLex_trichotomy (a b : BSDate) : bsLexLt a b ∨ a = b ∨ bsLexLt b a := by
  obtain ⟨ya, ma, da⟩ := a
  obtain ⟨yb, mb, db⟩ := b
  simp only [bsLexLt, BSDate.mk.injEq]
  omega

theorem lt_succBS (b : BSDate) : bsLexLt b (succBS b) := by
  obtain ⟨y, m, d⟩ := b
  unfold succBS bsLexLt
  dsimp only
  by_cases hd : d + 1 > getDaysInBSMonth y m
  · rw [if_pos hd]
    by_cases hm : m + 1 > 12
    · rw [if_pos hm]
      dsimp only
      omega
    · rw [if_neg hm]
      dsimp only
      omega
  · rw [if_neg hd]
    dsimp only
    omega

theorem predBS_lt (b : BSDate) : bsLexLt (predBS b) b := by
  obtain ⟨y, m, d⟩ := b
  unfold predBS bsLexLt
  dsimp only
  by_cases hd : d - 1 < 1
  · rw [if_pos hd]
    by_cases hm : m - 1 < 1
    · rw [if_pos hm]
      dsimp only
      omega
    · rw [if_neg hm]
      dsimp only
      omega
  · rw [if_neg hd]
    dsimp only
    omega

theorem valid_succIter {b : BSDate} (h : Valid b) (k : Nat) : Valid (succBS^[k] b) := by
  induction k with
  | zero => simpa using h
  | succ k ih =>
    rw [Function.iterate_succ_apply']
    exact valid_succ ih

theorem valid_predIter {b : BSDate} (h : Valid b) (k : Nat) : Valid (predBS^[k] b) := by
  induction k with
  | zero => simpa using h
  | succ k ih =>
    rw [Function.iterate_succ_apply']
    exact valid_pred ih

theorem lt_succIter {b : BSDate} {k : Nat} (hk : 1 ≤ k) : bsLexLt b (succBS^[k] b) := by
  induction k with
  | zero => omega
  | succ k ih =>
    rw [Function.iterate_succ_apply']
    rcases Nat.eq_or_lt_of_le hk with h1 | h1
    · have hk0 : k = 0 := by omega
      subst hk0
      simpa using lt_succBS b
    · exact bsLexLt_trans (ih (by omega)) (lt_succBS _)

theorem predIter_lt {b : BSDate} {k : Nat} (hk : 1 ≤ k) : bsLexLt (predBS^[k] b) b := by
  induction k with
  | zero => omega
  | succ k ih =>
    rw [Function.iterate_succ_apply']
    rcases Nat.eq_or_lt_of_le hk with h1 | h1
    · have hk0 : k = 0 := by omega
      subst hk0
      simpa using predBS_lt b
    · exact bsLexLt_trans (predBS_lt _) (ih (by omega))

theorem phi_succBS {b : BSDate} (h : Valid b) : phiBS b + 1 ≤ phiBS (succBS b) := by
  obtain ⟨y, m, d⟩ := b
  obtain ⟨h1, h2, h3, h4⟩ := h
  dsimp only at h1 h2 h3 h4
  have h32 := dim_le y m
  unfold succBS phiBS
  dsimp only
  by_cases hd : d + 1 > getDaysInBSMonth y m
  · rw [if_pos hd]
    by_cases hm : m + 1 > 12
    · rw [if_pos hm]
      dsimp only
      omega
    · rw [if_neg hm]
      dsimp only
      omega
  · rw [if_neg hd]
    dsimp only
    omega

theorem phi_predBS {b : BSDate} (h : Valid b) : phiBS (predBS b) + 1 ≤ phiBS b := by
  obtain ⟨y, m, d⟩ := b
  obtain ⟨h1, h2, h3, h4⟩ := h
  dsimp only at h1 h2 h3 h4
  have h32a := dim_le (y - 1) 12
  have h32b := dim_le y (m - 1)
  unfold predBS phiBS
  dsimp only
  by_cases hd : d - 1 < 1
  · rw [if_pos hd]
    by_cases hm : m - 1 < 1
    · rw [if_pos hm]
      dsimp only
      omega
    · rw [if_neg hm]
      dsimp only
      omega
  · rw [if_neg hd]
    dsimp only
    omega

theorem phi_succIter {b : BSDate} (h : Valid b) (k : Nat) :
    phiBS b + k ≤ phiBS (succBS^[k] b) := by
  induction k with
  | zero => simp
  | succ k ih =>
    rw [Function.iterate_succ_apply']
    have := phi_succBS (valid_succIter h k)
    push_cast
    push_cast at ih
    omega

theorem phi_predIter {b : BSDate} (h : Valid b) (k : Nat) :
    phiBS (predBS^[k] b) + k ≤ phiBS b := by
  induction k with
  | zero => simp
  | succ k ih =>
    rw [Function.iterate_succ_apply']
    have := phi_predBS (valid_predIter h k)
    push_cast
    push_cast at ih
    omega

theorem valid_mk {y m d : Int} (h1 : 1 ≤ m) (h2 : m ≤ 12) (h3 : 1 ≤ d)
    (h4 : d ≤ getDaysInBSMonth y m) : Valid ⟨y, m, d⟩ :=
  ⟨h1, h2, h3, h4⟩

theorem guardFwd_of_lt {s t : BSDate} (h : bsLexLt s t) :
    s.year < t.year ∨ s.month < t.month ∨ s.day < t.day := by
  unfold bsLexLt at h
  omega

theorem guardBwd_of_lt {s t : BSDate} (h : bsLexLt t s) :
    s.year > t.year ∨ s.month > t.month ∨ s.day > t.day := by
  unfold bsLexLt at h
  omega

theorem bsToADFwd_spec (k : Nat) :
    ∀ (b : BSDate) (acc : Int) (fuel : Nat), Valid b → k + 1 ≤ fuel →
      bsToADFwd fuel (succBS^[k] b) acc b = acc + k := by
  induction k with
  | zero =>
    intro b acc fuel hv hf
    obtain ⟨fuel, rfl⟩ : ∃ f, fuel = f + 1 := ⟨fuel - 1, by omega⟩
    simp only [Function.iterate_zero_apply, bsToADFwd]
    rw [if_neg (by omega)]
    simp
  | succ k ih =>
    intro b acc fuel hv hf
    obtain ⟨fuel, rfl⟩ : ∃ f, fuel = f + 1 := ⟨fuel - 1, by omega⟩
    have hguard := guardFwd_of_lt (lt_succIter (b := b) (k := k + 1) (by omega))
    simp only [bsToADFwd]
    rw [if_pos hguard, Function.iterate_succ_apply]
    rw [ih (succBS b) (acc + 1) fuel (valid_succ hv) (by omega)]
    push_cast
    ring

theorem bsToADBwd_spec (k : Nat) :
    ∀ (b : BSDate) (acc : Int) (fuel : Nat), Valid b → k + 1 ≤ fuel →
      bsToADBwd fuel (predBS^[k] b) acc b = acc - k := by
  induction k with
  | zero =>
    intro b acc fuel hv hf
    obtain ⟨fuel, rfl⟩ : ∃ f, fuel = f + 1 := ⟨fuel - 1, by omega⟩
    simp only [Function.iterate_zero_apply, bsToADBwd]
    rw [if_neg (by omega)]
    simp
  | succ k ih =>
    intro b acc fuel hv hf
    obtain ⟨fuel, rfl⟩ : ∃ f, fuel = f + 1 := ⟨fuel - 1, by omega⟩
    have hguard := guardBwd_of_lt (predIter_lt (b := b) (k := k + 1) (by omega))
    simp only [bsToADBwd]
    rw [if_pos hguard, Function.iterate_succ_apply]
    rw [ih (predBS b) (acc - 1) fuel (valid_pred hv) (by omega)]
    push_cast
    ring

theorem succIter_within (j : Nat) :
    ∀ b : BSDate, 1 ≤ b.day → b.day + j ≤ getDaysInBSMonth b.year b.month →
      succBS^[j] b = ⟨b.year, b.month, b.day + j⟩ := by
  induction j with
  | zero =>
    intro b _ _
    simp
  | succ j ih =>
    intro b h1 h2
    rw [Function.iterate_succ_apply]
    have hs : succBS b = ⟨b.year, b.month, b.day + 1⟩ := by
      unfold succBS
      rw [if_neg (by push_cast at h2; omega)]
    rw [hs, ih ⟨b.year, b.month, b.day + 1⟩ (by dsimp only; omega)
      (by dsimp only; push_cast at h2 ⊢; omega)]
    simp only [BSDate.mk.injEq, true_and]
    push_cast
    ring

theorem adToBSFwd_spec (fuel : Nat) :
    ∀ (diff : Int) (b : BSDate), Valid b → 0 ≤ diff → diff.toNat + 1 ≤ fuel →
      adToBSFwd fuel diff b = succBS^[diff.toNat] b := by
  induction fuel with
  | zero => intro diff b _ _ hf; omega
  | succ fuel ih =>
    intro diff b hv h0 hf
    obtain ⟨h1, h2, h3, h4⟩ := hv
    by_cases hpos : 0 < diff
    · simp only [adToBSFwd]
      rw [if_pos hpos]
      by_cases hrem : diff ≤ getDaysInBSMonth b.year b.month - b.day
      · rw [if_pos hrem]
        rw [succIter_within diff.toNat b h3 (by omega)]
        simp only [BSDate.mk.injEq, true_and]
        omega
      · rw [if_neg hrem]
        have hsplit : diff.toNat =
            (diff - (getDaysInBSMonth b.year b.month - b.day + 1)).toNat +
              (getDaysInBSMonth b.year b.month - b.day + 1).toNat := by omega
        rw [hsplit, Function.iterate_add_apply]
        have hmid : succBS^[(getDaysInBSMonth b.year b.month - b.day + 1).toNat] b =
            succBS ⟨b.year, b.month, getDaysInBSMonth b.year b.month⟩ := by
          have hm1 : (getDaysInBSMonth b.year b.month - b.day + 1).toNat =
              (getDaysInBSMonth b.year b.month - b.day).toNat + 1 := by omega
          rw [hm1, Function.iterate_succ_apply']
          rw [succIter_within _ b h3 (by omega)]
          congr 1
          simp only [BSDate.mk.injEq, true_and]
          omega
        rw [hmid]
        by_cases hm : b.month + 1 > 12
        · rw [if_pos hm]
          have hstep : succBS ⟨b.year, b.month, getDaysInBSMonth b.year b.month⟩ =
              ⟨b.year + 1, 1, 1⟩ := by
            unfold succBS
            dsimp only
            rw [if_pos (by omega), if_pos (by omega)]
          rw [hstep, ih _ _ (valid_mk (by omega) (by omega) (by omega) (dim_pos _ _)) (by omega) (by omega)]
        · rw [if_neg hm]
          have hstep : succBS ⟨b.year, b.month, getDaysInBSMonth b.year b.month⟩ =
              ⟨b.year, b.month + 1, 1⟩ := by
            unfold succBS
            dsimp only
            rw [if_pos (by omega), if_neg (by omega)]
          rw [hstep, ih _ _ (valid_mk (by omega) (by omega) (by omega) (dim_pos _ _)) (by omega) (by omega)]
    · have hz : diff = 0 := by omega
      subst hz
      simp only [adToBSFwd]
      rw [if_neg (by omega)]
      simp

theorem adToBSBwd_spec (fuel : Nat) :
    ∀ (diff : Int) (b : BSDate), diff ≤ 0 → (-diff).toNat + 1 ≤ fuel →
      adToBSBwd fuel diff b = predBS^[(-diff).toNat] b := by
  induction fuel with
  | zero => intro diff b _ hf; omega
  | succ fuel ih =>
    intro diff b h0 hf
    by_cases hneg : diff < 0
    · simp only [adToBSBwd]
      rw [if_pos hneg]
      rw [ih (diff + 1) (predBS b) (by omega) (by omega)]
      have hsplit : (-diff).toNat = (-(diff + 1)).toNat + 1 := by omega
      rw [hsplit, Function.iterate_succ_apply]
    · have hz : diff = 0 := by omega
      subst hz
      simp only [adToBSBwd]
      rw [if_neg (by omega)]
      simp

theorem adToBS_eq_walk (n : Int) : adToBS n = walkBS n := by
  unfold adToBS walkBS
  by_cases h : 0 ≤ n
  · rw [if_pos h, if_pos h]
    exact adToBSFwd_spec _ n BS_REFERENCE valid_ref h (by omega)
  · rw [if_neg h, if_neg h]
    exact adToBSBwd_spec _ n BS_REFERENCE (by omega) (by omega)

theorem ref_year : BS_REFERENCE.year = 2080 := rfl

theorem ref_month : BS_REFERENCE.month = 1 := rfl

theorem ref_day : BS_REFERENCE.day = 1 := rfl

theorem ref_phi : phiBS BS_REFERENCE = 832034 := by decide

theorem bsToADWith_succIter (k : Nat) (fuel : Nat) (hf : k + 1 ≤ fuel) :
    bsToADWith fuel (succBS^[k] BS_REFERENCE) = k := by
  have hv := valid_succIter valid_ref k
  have hphi := phi_succIter valid_ref k
  rw [ref_phi] at hphi
  obtain ⟨h1, h2, h3, h4⟩ := hv
  have hd32 : (succBS^[k] BS_REFERENCE).day ≤ 32 := le_trans h4 (dim_le _ _)
  have hy : 2080 ≤ (succBS^[k] BS_REFERENCE).year := by
    unfold phiBS at hphi
    omega
  unfold bsToADWith
  rw [if_pos (by rw [ref_year, ref_month, ref_day]; omega)]
  simpa using bsToADFwd_spec k BS_REFERENCE 0 fuel valid_ref hf

theorem fuel_fwd (k : Nat) : k + 1 ≤ bsToADFuel (succBS^[k] BS_REFERENCE) := by
  have hv := valid_succIter valid_ref k
  have hphi := phi_succIter valid_ref k
  rw [ref_phi] at hphi
  obtain ⟨h1, h2, h3, h4⟩ := hv
  have hd32 : (succBS^[k] BS_REFERENCE).day ≤ 32 := le_trans h4 (dim_le _ _)
  unfold bsToADFuel phiBS at *
  omega

theorem bsToADWith_predIter (k : Nat) (hk : 1 ≤ k) (fuel : Nat) (hf : k + 1 ≤ fuel) :
    bsToADWith fuel (predBS^[k] BS_REFERENCE) = -(k : Int) := by
  have hv := valid_predIter valid_ref k
  have hphi := phi_predIter valid_ref k
  rw [ref_phi] at hphi
  obtain ⟨h1, h2, h3, h4⟩ := hv
  have hy : (predBS^[k] BS_REFERENCE).year ≤ 2079 := by
    unfold phiBS at hphi
    omega
  unfold bsToADWith
  rw [if_neg (by rw [ref_year, ref_month, ref_day]; omega)]
  simpa using bsToADBwd_spec k BS_REFERENCE 0 fuel valid_ref hf

theorem fuel_bwd (k : Nat) (hk : 1 ≤ k) :
    k + 1 ≤ bsToADFuel (predBS^[k] BS_REFERENCE) := by
  have hv := valid_predIter valid_ref k
  have hphi := phi_predIter valid_ref k
  rw [ref_phi] at hphi
  obtain ⟨h1, h2, h3, h4⟩ := hv
  unfold bsToADFuel phiBS at *
  omega

theorem bsToAD_succIter (k : Nat) : bsToAD (succBS^[k] BS_REFERENCE) = k :=
  bsToADWith_succIter k _ (fuel_fwd k)

theorem bsToAD_predIter (k : Nat) (hk : 1 ≤ k) :
    bsToAD (predBS^[k] BS_REFERENCE) = -(k : Int) :=
  bsToADWith_predIter k hk _ (fuel_bwd k hk)

theorem bsToAD_walk (n : Int) : bsToAD (walkBS n) = n := by
  unfold walkBS
  by_cases h : 0 ≤ n
  · rw [if_pos h, bsToAD_succIter]
    omega
  · rw [if_neg h, bsToAD_predIter _ (by omega)]
    omega

theorem valid_walk (n : Int) : Valid (walkBS n) := by
  unfold walkBS
  split
  · exact valid_succIter valid_ref _
  · exact valid_predIter valid_ref _

theorem succ_cancel_iter (k : Nat) : ∀ b : BSDate, Valid b →
    succBS^[k] (predBS^[k] b) = b := by
  induction k with
  | zero => intro b _; simp
  | succ k ih =>
    intro b hv
    rw [Function.iterate_succ_apply (f := predBS), Function.iterate_succ_apply' (f := succBS)]
    rw [ih (predBS b) (valid_pred hv)]
    exact succ_pred hv

theorem walk_shift {n m : Int} (h : n ≤ m) :
    walkBS m = succBS^[(m - n).toNat] (walkBS n) := by
  unfold walkBS
  by_cases hn : 0 ≤ n
  · rw [if_pos hn, if_pos (by omega)]
    rw [← Function.iterate_add_apply]
    congr 1
    omega
  · by_cases hm : 0 ≤ m
    · rw [if_pos hm, if_neg hn]
      have hsplit : (m - n).toNat = m.toNat + (-n).toNat := by omega
      rw [hsplit, Function.iterate_add_apply]
      rw [succ_cancel_iter _ _ valid_ref]
    · rw [if_neg hm, if_neg hn]
      have hsplit : (-n).toNat = (m - n).toNat + (-m).toNat := by omega
      rw [hsplit, Function.iterate_add_apply]
      exact (succ_cancel_iter _ _ (valid_predIter valid_ref _)).symm

theorem walk_strictMono {n m : Int} (h : n < m) : bsLexLt (walkBS n) (walkBS m) := by
  rw [walk_shift (le_of_lt h)]
  exact lt_succIter (by omega)

theorem phi_lt_of_lt {a b : BSDate} (ha : Valid a) (hb : Valid b) (h : bsLexLt a b) :
    phiBS a < phiBS b := by
  obtain ⟨ya, ma, da⟩ := a
  obtain ⟨yb, mb, db⟩ := b
  obtain ⟨a1, a2, a3, a4⟩ := ha
  obtain ⟨b1, b2, b3, b4⟩ := hb
  dsimp only at a1 a2 a3 a4 b1 b2 b3 b4
  have ha32 : da ≤ 32 := le_trans a4 (dim_le _ _)
  have hb32 : db ≤ 32 := le_trans b4 (dim_le _ _)
  unfold bsLexLt at h
  dsimp only at h
  unfold phiBS
  dsimp only
  omega

theorem phi_le_of_le {a b : BSDate} (ha : Valid a) (hb : Valid b) (h : bsLexLe a b) :
    phiBS a ≤ phiBS b := by
  rcases h with h | h
  · exact le_of_lt (phi_lt_of_lt ha hb h)
  · rw [h]

/-- On valid dates, `succBS s` is the immediate lexicographic successor:
no valid date lies strictly between `s` and `succBS s`. -/
theorem succ_min {s t : BSDate} (ht : Valid t) (h : bsLexLt s t) :
    bsLexLe (succBS s) t := by
  obtain ⟨y, m, d⟩ := s
  obtain ⟨ty, tm, td⟩ := t
  obtain ⟨t1, t2, t3, t4⟩ := ht
  dsimp only at t1 t2 t3 t4
  unfold bsLexLt at h
  dsimp only at h
  unfold bsLexLe bsLexLt succBS
  dsimp only
  by_cases hc1 : d + 1 > getDaysInBSMonth y m
  · rw [if_pos hc1]
    by_cases hc2 : m + 1 > 12
    · rw [if_pos hc2]
      dsimp only
      simp only [BSDate.mk.injEq]
      rcases h with h | ⟨hy, hm2⟩ | ⟨hy, hm2, hd2⟩
      · omega
      · omega
      · subst hy
        subst hm2
        omega
    · rw [if_neg hc2]
      dsimp only
      simp only [BSDate.mk.injEq]
      rcases h with h | ⟨hy, hm2⟩ | ⟨hy, hm2, hd2⟩
      · omega
      · omega
      · subst hy
        subst hm2
        omega
  · rw [if_neg hc1]
    dsimp only
    simp only [BSDate.mk.injEq]
    rcases h with h | ⟨hy, hm2⟩ | ⟨hy, hm2, hd2⟩
    · omega
    · omega
    · subst hy
      subst hm2
      omega

theorem pred_max {s t : BSDate} (hs : Valid s) (ht : Valid t) (h : bsLexLt t s) :
    bsLexLe t (predBS s) := by
  rcases bsLex_trichotomy t (predBS s) with h1 | h1 | h1
  · exact Or.inl h1
  · exact Or.inr h1
  · exfalso
    have h2 := succ_min ht h1
    rw [succ_pred hs] at h2
    rcases h2 with h2 | h2
    · exact bsLexLt_asymm h h2
    · exact absurd h2.symm (bsLexLt_ne h)

theorem reach_fwd : ∀ (N : Nat) (b : BSDate), Valid b → bsLexLe BS_REFERENCE b →
    (phiBS b - phiBS BS_REFERENCE).toNat ≤ N →
    ∃ k : Nat, succBS^[k] BS_REFERENCE = b := by
  intro N
  induction N with
  | zero =>
    intro b hv hle hbound
    rcases hle with hlt | heq
    · exfalso
      have := phi_lt_of_lt valid_ref hv hlt
      omega
    · exact ⟨0, by simpa using heq⟩
  | succ N ih =>
    intro b hv hle hbound
    rcases hle with hlt | heq
    · have hv' := valid_pred hv
      have hle' : bsLexLe BS_REFERENCE (predBS b) := pred_max hv valid_ref hlt
      have hphi1 := phi_predBS hv
      have hphi2 := phi_le_of_le valid_ref hv' hle'
      obtain ⟨k, hk⟩ := ih (predBS b) hv' hle' (by omega)
      refine ⟨k + 1, ?_⟩
      rw [Function.iterate_succ_apply', hk]
      exact succ_pred hv
    · exact ⟨0, by simpa using heq⟩

theorem reach_bwd : ∀ (N : Nat) (b : BSDate), Valid b → bsLexLt b BS_REFERENCE →
    (phiBS BS_REFERENCE - phiBS b).toNat ≤ N →
    ∃ k : Nat, predBS^[k] BS_REFERENCE = b := by
  intro N
  induction N with
  | zero =>
    intro b hv hlt hbound
    exfalso
    have := phi_lt_of_lt hv valid_ref hlt
    omega
  | succ N ih =>
    intro b hv hlt hbound
    have h2 := succ_min valid_ref hlt
    rcases h2 with h2 | h2
    · have hphi1 := phi_succBS hv
      have hphi2 := phi_lt_of_lt (valid_succ hv) valid_ref h2
      obtain ⟨k, hk⟩ := ih (succBS b) (valid_succ hv) h2 (by omega)
      refine ⟨k + 1, ?_⟩
      rw [Function.iterate_succ_apply', hk]
      exact pred_succ hv
    · refine ⟨1, ?_⟩
      rw [Function.iterate_one, ← h2]
      exact pred_succ hv

theorem reachWalk (b : BSDate) (hv : Valid b) : ∃ n : Int, walkBS n = b := by
  rcases bsLex_trichotomy b BS_REFERENCE with h | h | h
  · obtain ⟨k, hk⟩ := reach_bwd _ b hv h le_rfl
    by_cases hk0 : k = 0
    · subst hk0
      refine ⟨0, ?_⟩
      unfold walkBS
      rw [if_pos le_rfl]
      simpa using hk
    · refine ⟨-(k : Int), ?_⟩
      unfold walkBS
      rw [if_neg (by omega)]
      simpa using hk
  · exact ⟨0, by unfold walkBS; rw [if_pos le_rfl]; simpa using h.symm⟩
  · obtain ⟨k, hk⟩ := reach_fwd _ b hv (Or.inl h) le_rfl
    refine ⟨(k : Int), ?_⟩
    unfold walkBS
    rw [if_pos (by omega)]
    simpa using hk

theorem bsToADWith_fuelIndep {b : BSDate} (hv : Valid b) {fuel : Nat}
    (hf : bsToADFuel b ≤ fuel) : bsToADWith fuel b = bsToAD b := by
  obtain ⟨n, rfl⟩ := reachWalk b hv
  by_cases hn : 0 ≤ n
  · have hb : walkBS n = succBS^[n.toNat] BS_REFERENCE := by
      unfold walkBS
      rw [if_pos hn]
    rw [hb] at hf ⊢
    unfold bsToAD
    rw [bsToADWith_succIter _ _ (le_trans (fuel_fwd n.toNat) hf),
        bsToADWith_succIter _ _ (fuel_fwd n.toNat)]
  · have hb : walkBS n = predBS^[(-n).toNat] BS_REFERENCE := by
      unfold walkBS
      rw [if_neg hn]
    have hk : 1 ≤ (-n).toNat := by omega
    rw [hb] at hf ⊢
    unfold bsToAD
    rw [bsToADWith_predIter _ hk _ (le_trans (fuel_bwd _ hk) hf),
        bsToADWith_predIter _ hk _ (fuel_bwd _ hk)]

/-- C1: round-trip of the converter pair.  For every primary date within
the table span of the anchor (represented, at day granularity, by its
floored day offset `n` from `AD_REFERENCE`), `bsToAD (adToBS n) = n`, and
for every `BSDate` reachable as `adToBS n`, `adToBS (bsToAD (adToBS n)) =
adToBS n`: `adToBS` and `bsToAD` are mutual inverses on table-reachable
dates. -/
theorem adToBS_bsToAD_roundtrip (n : Int) (h : n.natAbs ≤ tableSpanDays.toNat) :
    bsToAD (adToBS n) = n ∧ adToBS (bsToAD (adToBS n)) = adToBS n := by
  have h1 : bsToAD (adToBS n) = n := by
    rw [adToBS_eq_walk]
    exact bsToAD_walk n
  exact ⟨h1, by rw [h1]⟩

theorem adToBS_bsToAD_roundtrip_witness :
    (500 : Int).natAbs ≤ tableSpanDays.toNat ∧
      (bsToAD (adToBS 500) = 500 ∧ adToBS (bsToAD (adToBS 500)) = adToBS 500) :=
  ⟨by decide, adToBS_bsToAD_roundtrip 500 (by decide)⟩

/-- C2: monotonicity of `adToBS`.  If primary day offset `a` is strictly
before `b` (i.e. they fall on different calendar days, `a` earlier), then
`adToBS a` is strictly below `adToBS b` in lexicographic (year, month,
day) order — in particular `adToBS a ≤ adToBS b` and the outputs are never
equal unless the inputs are the same calendar day. -/
theorem adToBS_strictMono (a b : Int) (h : a < b) :
    bsLexLt (adToBS a) (adToBS b) := by
  rw [adToBS_eq_walk, adToBS_eq_walk]
  exact walk_strictMono h

theorem adToBS_strictMono_witness :
    (0 : Int) < 1 ∧ bsLexLt (adToBS 0) (adToBS 1) :=
  ⟨by decide, adToBS_strictMono 0 1 (by decide)⟩

/-- C3: converter output well-formedness.  For every input primary date
(day offset `n`), the `BSDate` returned by `adToBS` satisfies
`1 ≤ month ≤ 12` and `1 ≤ day ≤ getDaysInBSMonth year month`. -/
theorem adToBS_wellFormed (n : Int) :
    1 ≤ (adToBS n).month ∧ (adToBS n).month ≤ 12 ∧ 1 ≤ (adToBS n).day ∧
      (adToBS n).day ≤ getDaysInBSMonth (adToBS n).year (adToBS n).month := by
  rw [adToBS_eq_walk]
  exact valid_walk n

/-- C5: totality/termination of the converters.  The embedded loops are
fuel-indexed; this theorem states that the computed value has stabilised
at the fuel the definitions supply — i.e. the source's `while` loops exit
— for `adToBS` at every day-offset input, and for `bsToAD` at every
`BSDate` whose month is in `1..12` and whose day is within
`[1, getDaysInBSMonth year month]`.  (Nothing in the embedded code can
throw: every array access is `??`-guarded in the source.) -/
theorem converters_terminate (n : Int) (b : BSDate) (f1 f2 : Nat)
    (hf1 : n.natAbs + 1 ≤ f1)
    (hb : 1 ≤ b.month ∧ b.month ≤ 12 ∧ 1 ≤ b.day ∧
      b.day ≤ getDaysInBSMonth b.year b.month)
    (hf2 : bsToADFuel b ≤ f2) :
    (0 ≤ n → adToBSFwd f1 n BS_REFERENCE = adToBS n) ∧
    (n < 0 → adToBSBwd f1 n BS_REFERENCE = adToBS n) ∧
    bsToADWith f2 b = bsToAD b := by
  refine ⟨?_, ?_, bsToADWith_fuelIndep hb hf2⟩
  · intro h0
    rw [adToBSFwd_spec f1 n BS_REFERENCE valid_ref h0 (by omega), adToBS_eq_walk]
    unfold walkBS
    rw [if_pos h0]
  · intro h0
    rw [adToBSBwd_spec f1 n BS_REFERENCE (by omega) (by omega), adToBS_eq_walk]
    unfold walkBS
    rw [if_neg (by omega)]

theorem converters_terminate_witness :
    ((5 : Int).natAbs + 1 ≤ 11 ∧
      (1 ≤ (⟨2081, 2, 3⟩ : BSDate).month ∧ (⟨2081, 2, 3⟩ : BSDate).month ≤ 12 ∧
        1 ≤ (⟨2081, 2, 3⟩ : BSDate).day ∧
        (⟨2081, 2, 3⟩ : BSDate).day ≤
          getDaysInBSMonth (⟨2081, 2, 3⟩ : BSDate).year (⟨2081, 2, 3⟩ : BSDate).month) ∧
      bsToADFuel ⟨2081, 2, 3⟩ ≤ 2000) ∧
    ((0 ≤ (5 : Int) → adToBSFwd 11 5 BS_REFERENCE = adToBS 5) ∧
      ((5 : Int) < 0 → adToBSBwd 11 5 BS_REFERENCE = adToBS 5) ∧
      bsToADWith 2000 ⟨2081, 2, 3⟩ = bsToAD ⟨2081, 2, 3⟩) :=
  ⟨⟨by decide, by decide, by decide⟩,
    converters_terminate 5 ⟨2081, 2, 3⟩ 11 2000 (by decide) (by decide) (by decide)⟩

theorem decimalDigitsAux_congr : ∀ (f1 f2 n : Nat), n < f1 → n < f2 →
    decimalDigitsAux f1 n = decimalDigitsAux f2 n := by
  intro f1
  induction f1 with
  | zero => intro f2 n h1 _; omega
  | succ f1 ih =>
    intro f2 n h1 h2
    obtain ⟨f2, rfl⟩ : ∃ g, f2 = g + 1 := ⟨f2 - 1, by omega⟩
    simp only [decimalDigitsAux]
    by_cases h : n < 10
    · rw [if_pos h, if_pos h]
    · rw [if_neg h, if_neg h, ih f2 (n / 10) (by omega) (by omega)]

theorem decimalDigits_unfold (n : Nat) :
    decimalDigits n =
      if n < 10 then [n] else decimalDigits (n / 10) ++ [n % 10] := by
  unfold decimalDigits
  rw [show decimalDigitsAux (n + 1) n =
      if n < 10 then [n] else decimalDigitsAux n (n / 10) ++ [n % 10] from rfl]
  by_cases h : n < 10
  · rw [if_pos h, if_pos h]
  · rw [if_neg h, if_neg h,
      decimalDigitsAux_congr n (n / 10 + 1) (n / 10) (by omega) (by omega)]

theorem decimalDigits_ne_nil (n : Nat) : decimalDigits n ≠ [] := by
  rw [decimalDigits_unfold]
  split
  · simp
  · simp

theorem decimalDigits_lt10 (n : Nat) : ∀ v ∈ decimalDigits n, v < 10 := by
  induction n using Nat.strong_induction_on with
  | _ n ih =>
    rw [decimalDigits_unfold]
    split
    · intro v hv
      simp only [List.mem_singleton] at hv
      omega
    · intro v hv
      rw [List.mem_append] at hv
      rcases hv with hv | hv
      · exact ih (n / 10) (Nat.div_lt_self (by omega) (by omega)) v hv
      · simp only [List.mem_singleton] at hv
        subst hv
        exact Nat.mod_lt _ (by omega)

theorem digitChar_facts (v : Nat) (hv : v < 10) :
    (Nat.digitChar v).isDigit = true ∧
    mapNepaliChar (Nat.digitChar v) ∈ NEPALI_DIGITS ∧
    deNepaliChar (mapNepaliChar (Nat.digitChar v)) = Nat.digitChar v ∧
    (Nat.digitChar v).toNat - 48 = v := by
  interval_cases v <;> exact ⟨by decide, by decide, by decide, by decide⟩

theorem nepali_glyph_ne {c : Char} (hc : c ∈ NEPALI_DIGITS) : c ≠ 'ि' ∧ c ≠ '-' := by
  have hall : ∀ g ∈ NEPALI_DIGITS, g ≠ 'ि' ∧ g ≠ '-' := by decide
  exact hall c hc

theorem digitsVal_foldl (n : Nat) : ∀ acc : Nat,
    List.foldl (fun a c => 10 * a + (c.toNat - 48)) acc
        ((decimalDigits n).map Nat.digitChar) =
      acc * 10 ^ (decimalDigits n).length + n := by
  induction n using Nat.strong_induction_on with
  | _ n ih =>
    intro acc
    rw [decimalDigits_unfold]
    split
    · next h =>
      simp only [List.map_cons, List.map_nil, List.foldl_cons, List.foldl_nil,
        List.length_singleton, pow_one]
      rw [(digitChar_facts n h).2.2.2]
      ring
    · next h =>
      rw [List.map_append, List.foldl_append]
      rw [ih (n / 10) (Nat.div_lt_self (by omega) (by omega)) acc]
      simp only [List.map_cons, List.map_nil, List.foldl_cons, List.foldl_nil,
        List.length_append, List.length_singleton]
      rw [(digitChar_facts (n % 10) (Nat.mod_lt _ (by omega))).2.2.2]
      rw [pow_succ]
      have hdm := Nat.div_add_mod n 10
      set L := (decimalDigits (n / 10)).length
      set P := (10 : Nat) ^ L
      ring_nf
      omega

theorem digitsVal_decimal (n : Nat) :
    digitsVal ((decimalDigits n).map Nat.digitChar) = n := by
  unfold digitsVal
  rw [digitsVal_foldl n 0]
  simp

theorem splitDash_ne_nil (l : List Char) : splitDash l ≠ [] := by
  cases l with
  | nil => simp [splitDash]
  | cons c rest =>
    simp only [splitDash]
    cases hs : splitDash rest with
    | nil => simp
    | cons g gs =>
      dsimp only
      split <;> simp

theorem splitDash_nodash (l : List Char) (h : ∀ c ∈ l, c ≠ '-') : splitDash l = [l] := by
  induction l with
  | nil => rfl
  | cons c rest ih =>
    simp only [splitDash]
    rw [ih (fun x hx => h x (List.mem_cons_of_mem _ hx))]
    dsimp only
    rw [if_neg (h c (List.mem_cons_self _ _))]

theorem splitDash_append (A r : List Char) (h : ∀ c ∈ A, c ≠ '-') :
    splitDash (A ++ '-' :: r) = A :: splitDash r := by
  induction A with
  | nil =>
    simp only [List.nil_append, splitDash]
    cases hs : splitDash r with
    | nil => exact absurd hs (splitDash_ne_nil r)
    | cons g gs =>
      dsimp only
      simp
  | cons a A ih =>
    simp only [List.cons_append, splitDash, List.append_eq]
    rw [ih (fun x hx => h x (List.mem_cons_of_mem _ hx))]
    dsimp only
    rw [if_neg (h a (List.mem_cons_self _ _))]

theorem mapNepali_field_mem (l : List Nat) (hl : ∀ v ∈ l, v < 10) (j : Nat) :
    ∀ c ∈ (List.replicate j '0' ++ l.map Nat.digitChar).map mapNepaliChar,
      c ∈ NEPALI_DIGITS := by
  intro c hc
  rw [List.map_append, List.map_replicate] at hc
  rcases List.mem_append.mp hc with hc | hc
  · have : c = mapNepaliChar '0' := List.eq_of_mem_replicate hc
    subst this
    decide
  · rw [List.map_map] at hc
    obtain ⟨v, hv, rfl⟩ := List.mem_map.mp hc
    exact (digitChar_facts v (hl v hv)).2.1

theorem deMap_digitChars (l : List Nat) (hl : ∀ v ∈ l, v < 10) :
    ((l.map Nat.digitChar).map mapNepaliChar).map deNepaliChar = l.map Nat.digitChar := by
  induction l with
  | nil => rfl
  | cons v l ih =>
    simp only [List.map_cons]
    rw [(digitChar_facts v (hl v (List.mem_cons_self _ _))).2.2.1]
    rw [show ((l.map Nat.digitChar).map mapNepaliChar).map deNepaliChar =
        l.map Nat.digitChar from ih (fun x hx => hl x (List.mem_cons_of_mem _ hx))]

theorem deMap_padded (l : List Nat) (hl : ∀ v ∈ l, v < 10) (j : Nat) :
    ((List.replicate j '0' ++ l.map Nat.digitChar).map mapNepaliChar).map deNepaliChar =
      List.replicate j '0' ++ l.map Nat.digitChar := by
  have h0 : deNepaliChar (mapNepaliChar '0') = '0' := by decide
  rw [List.map_append, List.map_append, List.map_replicate, List.map_replicate, h0]
  rw [deMap_digitChars l hl]

theorem foldl_zeros (j : Nat) :
    List.foldl (fun a c => 10 * a + (c.toNat - 48)) 0 (List.replicate j '0') = 0 := by
  induction j with
  | zero => rfl
  | succ j ih => simpa [List.replicate_succ] using ih

theorem parseDecimal_padded (n : Nat) (j : Nat) :
    parseDecimal (List.replicate j '0' ++ (decimalDigits n).map Nat.digitChar) = some n := by
  unfold parseDecimal
  rw [if_pos ?hc]
  case hc =>
    constructor
    · simp [decimalDigits_ne_nil n]
    · rw [List.all_append]
      simp only [Bool.and_eq_true]
      refine ⟨?_, ?_⟩
      · rw [List.all_eq_true]
        intro c hc
        rw [List.eq_of_mem_replicate hc]
        decide
      · rw [List.all_eq_true]
        intro c hc
        obtain ⟨v, hv, rfl⟩ := List.mem_map.mp hc
        exact (digitChar_facts v (decimalDigits_lt10 n v hv)).1
  unfold digitsVal
  rw [List.foldl_append, foldl_zeros]
  exact congrArg some (digitsVal_decimal n)

theorem toNepali_plain_data (k : Nat) :
    (toNepaliDigits (decimalRepr k)).data =
      ((decimalDigits k).map Nat.digitChar).map mapNepaliChar := rfl

theorem toNepali_padded_data (k : Nat) :
    (toNepaliDigits (padStart2 (decimalRepr k))).data =
      (List.replicate (2 - ((decimalDigits k).map Nat.digitChar).length) '0' ++
        (decimalDigits k).map Nat.digitChar).map mapNepaliChar := rfl

theorem mapNepali_plain_mem (l : List Nat) (hl : ∀ v ∈ l, v < 10) :
    ∀ c ∈ (l.map Nat.digitChar).map mapNepaliChar, c ∈ NEPALI_DIGITS := by
  have := mapNepali_field_mem l hl 0
  simpa using this

theorem parseDecimal_plain (n : Nat) :
    parseDecimal ((decimalDigits n).map Nat.digitChar) = some n := by
  have := parseDecimal_padded n 0
  simpa using this

/-- C8 (amended: the claim as frozen quantifies over every `CalendarDate`
with month in `1..12` and day in `1..31`, but a negative year breaks the
parse-back — see the counterexample; the round trip holds for every
non-negative year).  Formatting in the short style and then splitting on
the separator and reversing the digit localization reproduces exactly the
input `(year, month, day)`. -/
theorem shortFormat_roundtrip (y m d : Int) (hy : 0 ≤ y) (hm1 : 1 ≤ m) (hm2 : m ≤ 12)
    (hd1 : 1 ≤ d) (hd2 : d ≤ 31) :
    parseShortBS (formatBSDate ⟨y, m, d⟩ BSDateFormat.short) = some ⟨y, m, d⟩ := by
  have hiy : intRepr y = decimalRepr y.toNat := by
    unfold intRepr
    rw [if_neg (by omega)]
  have him : intRepr m = decimalRepr m.toNat := by
    unfold intRepr
    rw [if_neg (by omega)]
  have hid : intRepr d = decimalRepr d.toNat := by
    unfold intRepr
    rw [if_neg (by omega)]
  unfold parseShortBS formatBSDate
  dsimp only
  rw [hiy, him, hid]
  have hdata : (toNepaliDigits (decimalRepr y.toNat) ++ "-" ++
        toNepaliDigits (padStart2 (decimalRepr m.toNat)) ++ "-" ++
        toNepaliDigits (padStart2 (decimalRepr d.toNat))).data =
      ((decimalDigits y.toNat).map Nat.digitChar).map mapNepaliChar ++ '-' ::
        ((List.replicate (2 - ((decimalDigits m.toNat).map Nat.digitChar).length) '0' ++
            (decimalDigits m.toNat).map Nat.digitChar).map mapNepaliChar ++ '-' ::
          (List.replicate (2 - ((decimalDigits d.toNat).map Nat.digitChar).length) '0' ++
              (decimalDigits d.toNat).map Nat.digitChar).map mapNepaliChar) := by
    simp only [String.data_append, toNepali_plain_data, toNepali_padded_data]
    simp [List.append_assoc]
  rw [hdata]
  rw [splitDash_append _ _ (fun c hc =>
    (nepali_glyph_ne (mapNepali_plain_mem _ (decimalDigits_lt10 _) c hc)).2)]
  rw [splitDash_append _ _ (fun c hc =>
    (nepali_glyph_ne (mapNepali_field_mem _ (decimalDigits_lt10 _) _ c hc)).2)]
  rw [splitDash_nodash _ (fun c hc =>
    (nepali_glyph_ne (mapNepali_field_mem _ (decimalDigits_lt10 _) _ c hc)).2)]
  dsimp only
  rw [deMap_digitChars _ (decimalDigits_lt10 _), parseDecimal_plain]
  rw [deMap_padded _ (decimalDigits_lt10 _), parseDecimal_padded]
  rw [deMap_padded _ (decimalDigits_lt10 _), parseDecimal_padded]
  dsimp only
  simp only [Option.some.injEq, BSDate.mk.injEq]
  refine ⟨?_, ?_, ?_⟩ <;> omega

theorem shortFormat_roundtrip_witness :
    ((0 : Int) ≤ 2082 ∧ (1 : Int) ≤ 9 ∧ (9 : Int) ≤ 12 ∧ (1 : Int) ≤ 14 ∧ (14 : Int) ≤ 31) ∧
      parseShortBS (formatBSDate ⟨2082, 9, 14⟩ BSDateFormat.short) = some ⟨2082, 9, 14⟩ :=
  ⟨⟨by decide, by decide, by decide, by decide, by decide⟩,
    shortFormat_roundtrip 2082 9 14 (by decide) (by decide) (by decide) (by decide) (by decide)⟩

/-- C8 counterexample: at the `CalendarDate` `(-1, 1, 1)` (month in
`1..12`, day in `1..31`), the short-style output is `"-१-०१-०१"`; splitting
it on the separator yields four fields, so the parse-back does not
reproduce the input.  The claim as frozen, which does not restrict the
year, is therefore false. -/
theorem shortFormat_roundtrip_fails_negative_year :
    parseShortBS (formatBSDate ⟨-1, 1, 1⟩ BSDateFormat.short) ≠ some ⟨-1, 1, 1⟩ := by
  decide

/-- C4: unknown-year fallback of the calendar table.  For every year `y`
with no entry in `BS_CALENDAR_DATA` and every month `m` in `1..12`,
`getDaysInBSMonth y m` is the `m`-th entry of the fixed 12-element default
pattern `defaultDays` (not a failure, and not a single constant: months 3
and 8 of any fallback year differ), and `getDaysInBSYear y = 365`. -/
theorem daysInMonth_fallback (y m : Int) (hnone : BS_CALENDAR_DATA y = none)
    (h1 : 1 ≤ m) (h2 : m ≤ 12) :
    getDaysInBSMonth y m = defaultDays.getD (m - 1).toNat 30 ∧
      defaultDays.length = 12 ∧
      getDaysInBSYear y = 365 ∧
      getDaysInBSMonth y 3 ≠ getDaysInBSMonth y 8 := by
  refine ⟨?_, by decide, ?_, ?_⟩
  · unfold getDaysInBSMonth
    rw [hnone]
    dsimp only
    unfold listIdx
    rw [if_pos (by omega)]
    rw [List.getD_eq_getElem?_getD, List.get?_eq_getElem?]
  · unfold getDaysInBSYear
    rw [hnone]
  · unfold getDaysInBSMonth
    rw [hnone]
    decide

theorem daysInMonth_fallback_witness :
    (BS_CALENDAR_DATA 2095 = none ∧ (1 : Int) ≤ 5 ∧ (5 : Int) ≤ 12) ∧
      (getDaysInBSMonth 2095 5 = defaultDays.getD ((5 : Int) - 1).toNat 30 ∧
        defaultDays.length = 12 ∧
        getDaysInBSYear 2095 = 365 ∧
        getDaysInBSMonth 2095 3 ≠ getDaysInBSMonth 2095 8) :=
  ⟨⟨by decide, by decide, by decide⟩,
    daysInMonth_fallback 2095 5 (by decide) (by decide) (by decide)⟩

/-- C9: digit localizer correctness and totality.  `toNepaliDigits` (a
total function) returns a string of the same length in which each ASCII
digit character is replaced by the corresponding entry of the 10-element
glyph table `NEPALI_DIGITS`, and every other character is unchanged and in
the same position. -/
theorem toNepaliDigits_pointwise (s : String) (i : Nat) (hi : i < s.data.length) :
    (toNepaliDigits s).data.length = s.data.length ∧
    ((s.data.getD i ' ').isDigit = true →
      (toNepaliDigits s).data.getD i ' ' =
        (NEPALI_DIGITS.get? ((s.data.getD i ' ').toNat - 48)).getD (s.data.getD i ' ')) ∧
    ((s.data.getD i ' ').isDigit = false →
      (toNepaliDigits s).data.getD i ' ' = s.data.getD i ' ') := by
  have hdata : (toNepaliDigits s).data = s.data.map mapNepaliChar := rfl
  have hget : (toNepaliDigits s).data.getD i ' ' = mapNepaliChar (s.data.getD i ' ') := by
    rw [hdata, List.getD_eq_getElem?_getD, List.getD_eq_getElem?_getD, List.getElem?_map]
    rw [List.getElem?_eq_getElem hi]
    rfl
  refine ⟨by rw [hdata, List.length_map], ?_, ?_⟩
  · intro hdig
    rw [hget]
    unfold mapNepaliChar
    rw [if_pos hdig]
  · intro hdig
    rw [hget]
    unfold mapNepaliChar
    rw [if_neg ?hc]
    case hc =>
      rw [hdig]
      simp

theorem toNepaliDigits_pointwise_witness :
    (0 < ("a5" : String).data.length) ∧
      ((toNepaliDigits "a5").data.length = ("a5" : String).data.length ∧
        ((("a5" : String).data.getD 0 ' ').isDigit = true →
          (toNepaliDigits "a5").data.getD 0 ' ' =
            (NEPALI_DIGITS.get? ((("a5" : String).data.getD 0 ' ').toNat - 48)).getD
              (("a5" : String).data.getD 0 ' ')) ∧
        ((("a5" : String).data.getD 0 ' ').isDigit = false →
          (toNepaliDigits "a5").data.getD 0 ' ' = ("a5" : String).data.getD 0 ' ')) :=
  ⟨by decide, toNepaliDigits_pointwise "a5" 0 (by decide)⟩

/-- C10 (implicit): the shared-library `formatBSDate` is total over
arbitrary month values — the embedding is a total function for every
`BSDate` — and whenever `month - 1` falls outside the 12-element
`BS_MONTHS` table, the month name is rendered as the empty string in the
`full` and `long` styles. -/
theorem formatBSDate_total_outOfRange (b : BSDate) (h : b.month < 1 ∨ 12 < b.month) :
    bsMonthName b.month = "" ∧
    formatBSDate b BSDateFormat.full =
      toNepaliDigits (intRepr b.day) ++ " " ++ "" ++ " " ++ toNepaliDigits (intRepr b.year) ∧
    formatBSDate b BSDateFormat.long =
      "" ++ " " ++ toNepaliDigits (intRepr b.day) ++ ", " ++ toNepaliDigits (intRepr b.year) := by
  have hname : bsMonthName b.month = "" := by
    unfold bsMonthName
    rw [if_neg (by omega)]
  refine ⟨hname, ?_, ?_⟩
  · unfold formatBSDate
    rw [hname]
  · unfold formatBSDate
    rw [hname]

theorem formatBSDate_total_outOfRange_witness :
    ((⟨2082, 13, 5⟩ : BSDate).month < 1 ∨ 12 < (⟨2082, 13, 5⟩ : BSDate).month) ∧
      (bsMonthName (⟨2082, 13, 5⟩ : BSDate).month = "" ∧
        formatBSDate ⟨2082, 13, 5⟩ BSDateFormat.full =
          toNepaliDigits (intRepr (⟨2082, 13, 5⟩ : BSDate).day) ++ " " ++ "" ++ " " ++
            toNepaliDigits (intRepr (⟨2082, 13, 5⟩ : BSDate).year) ∧
        formatBSDate ⟨2082, 13, 5⟩ BSDateFormat.long =
          "" ++ " " ++ toNepaliDigits (intRepr (⟨2082, 13, 5⟩ : BSDate).day) ++ ", " ++
            toNepaliDigits (intRepr (⟨2082, 13, 5⟩ : BSDate).year)) :=
  ⟨by decide, formatBSDate_total_outOfRange ⟨2082, 13, 5⟩ (by decide)⟩

theorem digits_mapN_last (k : Nat) :
    ∃ g ∈ NEPALI_DIGITS,
      (((decimalDigits k).map Nat.digitChar).map mapNepaliChar).getLast? = some g := by
  obtain ⟨v, hv⟩ : ∃ v, (decimalDigits k).getLast? = some v := by
    cases hg : (decimalDigits k).getLast? with
    | none => exact absurd (List.getLast?_eq_none.mp hg) (decimalDigits_ne_nil k)
    | some v => exact ⟨v, rfl⟩
  have hvmem : v ∈ decimalDigits k := by
    have hmem : v ∈ (decimalDigits k).getLast? := by
      rw [hv]
      rfl
    obtain ⟨hne, heq⟩ := List.mem_getLast?_eq_getLast hmem
    rw [heq]
    exact List.getLast_mem hne
  have hlt := decimalDigits_lt10 k v hvmem
  refine ⟨mapNepaliChar (Nat.digitChar v), (digitChar_facts v hlt).2.1, ?_⟩
  rw [List.getLast?_map, List.getLast?_map, hv]
  rfl

theorem toNepali_intRepr_last (n : Int) :
    ∃ g ∈ NEPALI_DIGITS, (toNepaliDigits (intRepr n)).data.getLast? = some g := by
  by_cases h : n < 0
  · obtain ⟨g, hg, hlast⟩ := digits_mapN_last (-n).toNat
    refine ⟨g, hg, ?_⟩
    have h1 : intRepr n = "-" ++ decimalRepr (-n).toNat := by
      unfold intRepr
      rw [if_pos h]
    rw [show (toNepaliDigits (intRepr n)).data = ((intRepr n).data).map mapNepaliChar
      from rfl, h1, String.data_append]
    rw [show ("-" : String).data = ['-'] from rfl]
    rw [show (decimalRepr (-n).toNat).data = ((decimalDigits (-n).toNat).map Nat.digitChar)
      from rfl]
    rw [List.map_append, List.getLast?_append_of_ne_nil _
      (by simp [decimalDigits_ne_nil])]
    exact hlast
  · obtain ⟨g, hg, hlast⟩ := digits_mapN_last n.toNat
    refine ⟨g, hg, ?_⟩
    have h1 : intRepr n = decimalRepr n.toNat := by
      unfold intRepr
      rw [if_neg h]
    rw [show (toNepaliDigits (intRepr n)).data = ((intRepr n).data).map mapNepaliChar
      from rfl, h1]
    exact hlast

theorem toNepali_intRepr_ne_nil (n : Int) : (toNepaliDigits (intRepr n)).data ≠ [] := by
  obtain ⟨g, hg, hlast⟩ := toNepali_intRepr_last n
  intro hnil
  rw [hnil] at hlast
  simp at hlast

theorem formatFull_last (b : BSDate) :
    ∃ g ∈ NEPALI_DIGITS, (formatBSDate b BSDateFormat.full).data.getLast? = some g := by
  obtain ⟨g, hg, hlast⟩ := toNepali_intRepr_last b.year
  refine ⟨g, hg, ?_⟩
  show ((toNepaliDigits (intRepr b.day) ++ " " ++ bsMonthName b.month ++ " " ++
      toNepaliDigits (intRepr b.year)).data).getLast? = some g
  rw [String.data_append]
  rw [List.getLast?_append_of_ne_nil _ (toNepali_intRepr_ne_nil b.year)]
  exact hlast

/-- C6: relative-time future fallback.  For every timestamp strictly later
than now (`nowMs - dateMs < 0`), `getRelativeTimeNepali` returns the
absolute full-style BS date `formatBSDate (adToBS date) full`, and the
result is never an "ago"-style phrase (every relative phrase produced by
the function ends in the word "अघि"; the fallback's last character is a
digit glyph). -/
theorem relativeTime_future_fallback (nowMs dateMs : Int) (h : nowMs - dateMs < 0) :
    getRelativeTimeNepali nowMs dateMs =
      formatBSDate (adToBS (msToDayOffset dateMs)) BSDateFormat.full ∧
    ∀ p : String, getRelativeTimeNepali nowMs dateMs ≠ p ++ "अघि" := by
  have heq : getRelativeTimeNepali nowMs dateMs =
      formatBSDate (adToBS (msToDayOffset dateMs)) BSDateFormat.full := by
    simp only [getRelativeTimeNepali]
    rw [if_pos h]
  refine ⟨heq, ?_⟩
  intro p hp
  rw [heq] at hp
  obtain ⟨g, hg, hlast⟩ := formatFull_last (adToBS (msToDayOffset dateMs))
  rw [hp, String.data_append,
    List.getLast?_append_of_ne_nil _ (by decide),
    show (("अघि" : String).data).getLast? = some 'ि' from by decide] at hlast
  rw [Option.some.injEq] at hlast
  exact (nepali_glyph_ne hg).1 hlast.symm

theorem relativeTime_future_fallback_witness :
    ((1767009600000 : Int) - 1767571200000 < 0) ∧
      (getRelativeTimeNepali 1767009600000 1767571200000 =
          formatBSDate (adToBS (msToDayOffset 1767571200000)) BSDateFormat.full ∧
        ∀ p : String, getRelativeTimeNepali 1767009600000 1767571200000 ≠ p ++ "अघि") :=
  ⟨by decide, relativeTime_future_fallback 1767009600000 1767571200000 (by decide)⟩

/-- C7: the "yesterday" bucket of the relative-time engine.  For every
pair of timestamps whose floored elapsed hours are at least 24 and whose
floored elapsed days equal exactly 1, `getRelativeTimeNepali` returns the
fixed phrase "हिजो" (the yesterday bucket fires before the generic
"days ago" bucket); in particular with now = 2025-12-29T12:00:00Z and
timestamp 2025-12-28T12:00:00Z (see the witness). -/
theorem relativeTime_yesterday (nowMs dateMs : Int)
    (h24 : 24 ≤ Int.fdiv (Int.fdiv (Int.fdiv (nowMs - dateMs) 1000) 60) 60)
    (h1 : Int.fdiv (Int.fdiv (Int.fdiv (Int.fdiv (nowMs - dateMs) 1000) 60) 60) 24 = 1) :
    getRelativeTimeNepali nowMs dateMs = "हिजो" := by
  have e1000 : ∀ a : Int, Int.fdiv a 1000 = a / 1000 := fun a =>
    Int.fdiv_eq_ediv a (by norm_num)
  have e60 : ∀ a : Int, Int.fdiv a 60 = a / 60 := fun a =>
    Int.fdiv_eq_ediv a (by norm_num)
  have e24 : ∀ a : Int, Int.fdiv a 24 = a / 24 := fun a =>
    Int.fdiv_eq_ediv a (by norm_num)
  rw [e1000, e60, e60] at h24
  rw [e1000, e60, e60, e24] at h1
  simp only [getRelativeTimeNepali]
  rw [if_neg (by omega)]
  rw [if_neg (by rw [e1000]; omega)]
  rw [if_neg (by rw [e1000, e60]; omega)]
  rw [if_neg (by rw [e1000, e60, e60]; omega)]
  rw [if_pos (by rw [e1000, e60, e60, e24]; exact h1)]

theorem relativeTime_yesterday_witness :
    (24 ≤ Int.fdiv (Int.fdiv (Int.fdiv ((1767009600000 : Int) - 1766923200000) 1000) 60) 60 ∧
      Int.fdiv (Int.fdiv (Int.fdiv (Int.fdiv ((1767009600000 : Int) - 1766923200000) 1000)
        60) 60) 24 = 1) ∧
      getRelativeTimeNepali 1767009600000 1766923200000 = "हिजो" :=
  ⟨⟨by decide, by decide⟩, relativeTime_yesterday 1767009600000 1766923200000
    (by decide) (by decide)⟩

end HamroNepal
